import Mathlib

/-!
Verification development for the visual-novel story engine
(`src/lib/xmlParser.ts`, `src/app/api/story/route.ts`,
`src/components/VisualNovel.tsx`, `src/components/TypingText.tsx`,
`src/lib/saveManager.ts`).

Strings are modelled as `List Char` (`Str`), mirroring JavaScript string
operations character by character.
-/

namespace SekaiVN

/-- Characters of a JavaScript string. -/
abbrev Str := List Char

/-- Model of JavaScript `String.prototype.trim`: drop whitespace from both
ends. -/
def jsTrim (s : Str) : Str :=
  ((s.dropWhile Char.isWhitespace).reverse.dropWhile Char.isWhitespace).reverse

/-- Model of JavaScript `String.prototype.toLowerCase` (ASCII). -/
def jsToLower (s : Str) : Str := s.map Char.toLower

/-- Find the first occurrence of `pat` in `s`; return the part strictly
before it and the part strictly after it.  This is the primitive behind
the lazy-regex searches (`indexOf` + slicing) of the source. -/
def splitFirst (pat : Str) : Str → Option (Str × Str)
  | [] => if pat = [] then some ([], []) else none
  | c :: rest =>
    if pat.isPrefixOf (c :: rest) then some ([], (c :: rest).drop pat.length)
    else
      match splitFirst pat rest with
      | some (pre, post) => some (c :: pre, post)
      | none => none

/-! ### The segment data model (`xmlParser.ts`) -/

/-- Tagged union `ParsedSegment = NarratorText | CharacterDialogue`.
The optional `action` field of a character line is `Option Str`. -/
inductive ParsedSegment : Type
  | narrator (text : Str)
  | character (name expression text : Str) (action : Option Str)
deriving Repr, DecidableEq

/-- Choice `{ id, text }` offered at the end of a round. -/
structure Choice : Type where
  id : Str
  text : Str
deriving Repr, DecidableEq

/-! ### `parseSimpleXML` (regex-based extraction, `xmlParser.ts` 211-272)

Each lazy regex of the source is modelled by an explicit left-to-right
scanner.  The scanners take a fuel argument (instantiated with the string
length, an upper bound on the number of scanning steps, each of which
consumes at least one character) so that they are structurally recursive
and kernel-computable. -/

def openNarr : Str := "<Narrator>".toList
def closeNarr : Str := "</Narrator>".toList
def openCharTag : Str := "<character name=\"".toList
def closeCharTag : Str := "</character>".toList
def openActionTag : Str := "<action expression=\"".toList
def closeActionTag : Str := "</action>".toList
def openSayTag : Str := "<say>".toList
def closeSayTag : Str := "</say>".toList
def neutralStr : Str := "neutral".toList

/-- Successive matches of `/<Narrator>(.*?)<\/Narrator>/gs`: find the next
literal `<Narrator>`, then the nearest following `</Narrator>`; the capture
is the text in between, and scanning resumes after the close. -/
def extractNarratorsF : Nat → Str → List Str
  | 0, _ => []
  | fuel + 1, s =>
    match splitFirst openNarr s with
    | none => []
    | some (_, afterOpen) =>
      match splitFirst closeNarr afterOpen with
      | none => []
      | some (content, rest) => content :: extractNarratorsF fuel rest

def extractNarrators (s : Str) : List Str := extractNarratorsF s.length s

/-- Successive matches of `/<character name="([^"]+)">(.*?)<\/character>/gs`:
after the literal `<character name="` the name is a non-empty maximal run of
non-quote characters, followed by `">`; the block content is captured lazily
up to the nearest `</character>`.  On an inner mismatch the regex engine
advances the start position by one character. -/
def extractBlocksF : Nat → Str → List (Str × Str)
  | 0, _ => []
  | _ + 1, [] => []
  | fuel + 1, c :: rest =>
    if openCharTag.isPrefixOf (c :: rest) then
      let afterOpen := (c :: rest).drop openCharTag.length
      let nm := afterOpen.takeWhile (fun ch => ch ≠ '"')
      match nm, afterOpen.drop nm.length with
      | _ :: _, '"' :: '>' :: r2 =>
        match splitFirst closeCharTag r2 with
        | some (content, rest2) => (nm, content) :: extractBlocksF fuel rest2
        | none => extractBlocksF fuel rest
      | _, _ => extractBlocksF fuel rest
    else extractBlocksF fuel rest

def extractBlocks (s : Str) : List (Str × Str) := extractBlocksF s.length s

/-- How one narrator capture sits in the source: some preceding text, the
literal open tag, the captured content, the literal close tag.  A list of
these, flattened, describes disjoint narrator blocks laid out left to
right. -/
def narrBlockRender (pc : Str × Str) : Str :=
  pc.1 ++ openNarr ++ pc.2 ++ closeNarr

/-- How one character-block capture sits in the source: preceding text, the
literal `<character name="`, the captured name, the literal `">`, the
captured block content, the literal close tag. -/
def charBlockRender (pnc : Str × (Str × Str)) : Str :=
  pnc.1 ++ openCharTag ++ pnc.2.1 ++ ('"' :: '>' :: []) ++ pnc.2.2 ++ closeCharTag

/-- Successive matches of `/<action expression="([^"]+)">([^<]*)<\/action>/g`
inside one character block. -/
def extractActionsF : Nat → Str → List (Str × Str)
  | 0, _ => []
  | _ + 1, [] => []
  | fuel + 1, c :: rest =>
    if openActionTag.isPrefixOf (c :: rest) then
      let a := (c :: rest).drop openActionTag.length
      let expr := a.takeWhile (fun ch => ch ≠ '"')
      match expr, a.drop expr.length with
      | _ :: _, '"' :: '>' :: r2 =>
        let txt := r2.takeWhile (fun ch => ch ≠ '<')
        let r3 := r2.drop txt.length
        if closeActionTag.isPrefixOf r3 then
          (expr, txt) :: extractActionsF fuel (r3.drop closeActionTag.length)
        else extractActionsF fuel rest
      | _, _ => extractActionsF fuel rest
    else extractActionsF fuel rest

def extractActions (s : Str) : List (Str × Str) := extractActionsF s.length s

/-- Successive matches of `/<say>([^<]*)<\/say>/g` inside one character
block. -/
def extractSaysF : Nat → Str → List Str
  | 0, _ => []
  | _ + 1, [] => []
  | fuel + 1, c :: rest =>
    if openSayTag.isPrefixOf (c :: rest) then
      let a := (c :: rest).drop openSayTag.length
      let txt := a.takeWhile (fun ch => ch ≠ '<')
      let r := a.drop txt.length
      if closeSayTag.isPrefixOf r then
        txt :: extractSaysF fuel (r.drop closeSayTag.length)
      else extractSaysF fuel rest
    else extractSaysF fuel rest

def extractSays (s : Str) : List Str := extractSaysF s.length s

/-- The per-block loop of `parseSimpleXML` (`xmlParser.ts` 248-268): walk
the `say` matches positionally; the i-th `say` takes the i-th action's
lower-cased expression and trimmed text, or `neutral` / empty when the
actions run out; a dialogue that is empty after trimming is skipped. -/
def alignBlock (nm : Str) : List Str → List (Str × Str) → List ParsedSegment
  | [], _ => []
  | d :: ds, acts =>
    let expAct : Str × Str :=
      match acts with
      | ea :: _ => (jsToLower ea.1, jsTrim ea.2)
      | [] => (neutralStr, [])
    let dialogue := jsTrim d
    let rest := alignBlock nm ds acts.tail
    if dialogue = [] then rest
    else ParsedSegment.character nm expAct.1 dialogue (some expAct.2) :: rest

/-- Model of `parseSimpleXML` (`xmlParser.ts` 211-272): empty or
whitespace-only input yields no segments; otherwise all `<Narrator>`
matches are pushed first, then each `<character name="...">` block is
expanded by the say/action alignment loop. -/
def parseSimpleXML (xmlString : Str) : List ParsedSegment :=
  if jsTrim xmlString = [] then []
  else
    (extractNarrators xmlString).map (fun t => ParsedSegment.narrator (jsTrim t))
      ++ ((extractBlocks xmlString).map (fun b =>
            alignBlock b.1 (extractSays b.2) (extractActions b.2))).flatten


/-! ### `XMLStreamParser` (`xmlParser.ts` 33-190)

The class fields become a state record; `parseChunk` appends the chunk to
the persistent buffer and then runs `processBuffer`, which scans the
*whole* buffer from index 0 (the source never consumes the buffer). -/

/-- The `currentSegment : Partial<ParsedSegment>` field. -/
inductive PartialSeg : Type
  | narr (text : Str)
  | char (name expression text : Str) (action : Option Str)
deriving Repr, DecidableEq

/-- Mutable fields of `XMLStreamParser`. -/
structure PState : Type where
  buffer : Str
  segments : List ParsedSegment
  choices : List Choice
  currentSegment : Option PartialSeg
  isInTag : Bool
  tagName : Str
  attributes : List (Str × Str)
deriving Repr, DecidableEq

/-- The fresh parser state (also the result of `reset`). -/
def initState : PState :=
  { buffer := [], segments := [], choices := [], currentSegment := none,
    isInTag := false, tagName := [], attributes := [] }

/-- Attribute lookup on the JS attribute object: the last assignment to a
key wins. -/
def lookupAttr (attrs : List (Str × Str)) (k : Str) : Option Str :=
  (attrs.filter (fun kv => kv.1 = k)).getLast?.map (fun kv => kv.2)

/-- Model of `attributes.key || default`: a missing or empty (falsy) value
falls back to the default. -/
def attrOr (attrs : List (Str × Str)) (k d : Str) : Str :=
  match lookupAttr attrs k with
  | some v => if v = [] then d else v
  | none => d

/-- `parseTag` (`xmlParser.ts` 102-117): split the tag content on single
spaces, lower-case the first part as the tag name, and collect `key=value`
attribute parts (quotes stripped from the value). -/
def parseTag (tagContent : Str) : Str × List (Str × Str) :=
  let parts := tagContent.splitOn ' '
  let tn := jsToLower (parts.headD [])
  let attrs := parts.tail.foldl
    (fun (acc : List (Str × Str)) part =>
      let key := part.takeWhile (fun ch => ch ≠ '=')
      if 0 < key.length ∧ key.length < part.length then
        acc ++ [(key, (part.drop (key.length + 1)).filter
                  (fun ch => ch ≠ '\'' ∧ ch ≠ '"'))]
      else acc)
    []
  (tn, attrs)

/-- Text content of the partial segment (`currentSegment.text`). -/
def PartialSeg.text : PartialSeg → Str
  | .narr t => t
  | .char _ _ t _ => t

/-- `handleTextContent` (`xmlParser.ts` 93-100): append the character to the
current segment's text accumulator, if a segment is open. -/
def handleTextContent (st : PState) (c : Char) : PState :=
  match st.currentSegment with
  | none => st
  | some (.narr t) => { st with currentSegment := some (.narr (t ++ [c])) }
  | some (.char n e t a) =>
      { st with currentSegment := some (.char n e (t ++ [c]) a) }

/-- `handleOpeningTag` (`xmlParser.ts` 119-152). -/
def handleOpeningTag (st : PState) : PState :=
  if st.tagName = "narrator".toList then
    { st with currentSegment := some (.narr []) }
  else if st.tagName = "character".toList then
    { st with currentSegment := some (.char
        (attrOr st.attributes "name".toList [])
        (attrOr st.attributes "expression".toList neutralStr) [] none) }
  else if st.tagName = "action".toList then
    match st.currentSegment with
    | some (.char n _ t _) =>
        { st with currentSegment := some (.char n
            (attrOr st.attributes "expression".toList neutralStr) t (some [])) }
    | _ => st
  else st

/-- Finalize the partial segment when a closing tag is handled: the text is
trimmed and the partial is cast to a `ParsedSegment`. -/
def PartialSeg.finalize : PartialSeg → ParsedSegment
  | .narr t => ParsedSegment.narrator (jsTrim t)
  | .char n e t a => ParsedSegment.character n e (jsTrim t) a

/-- `handleClosingTag` (`xmlParser.ts` 154-172): on `/narrator` or
`/character`, push the current segment if its (untrimmed) text is non-empty
and clear it; all other closing tags are ignored. -/
def handleClosingTag (st : PState) : PState :=
  let closing := st.tagName.drop 1
  if closing = "narrator".toList ∨ closing = "character".toList then
    match st.currentSegment with
    | some ps =>
        if ps.text ≠ [] then
          { st with segments := st.segments ++ [ps.finalize],
                    currentSegment := none }
        else { st with currentSegment := none }
    | none => { st with currentSegment := none }
  else st

/-- `handleTagEnd` (`xmlParser.ts` 83-91). -/
def handleTagEnd (st : PState) : PState :=
  let st1 := { st with isInTag := false }
  if ['/'].isPrefixOf st1.tagName then handleClosingTag st1
  else handleOpeningTag st1

/-- `processBuffer` (`xmlParser.ts` 57-81), as a scan over the remaining
suffix of the buffer.  On `<`, `handleTagStart` looks ahead for the next
`>`; if present it records tag name and attributes and sets `isInTag`
(an incomplete tag leaves the state unchanged).  On `>`, `handleTagEnd`
dispatches on the recorded tag name.  Other characters are text content
unless inside a tag. -/
def processChars (st : PState) : Str → PState
  | [] => st
  | c :: rest =>
    if c = '<' then
      let st1 :=
        match splitFirst ['>'] rest with
        | none => st
        | some (tagContent, _) =>
            let ta := parseTag tagContent
            { st with tagName := ta.1, attributes := ta.2, isInTag := true }
      processChars st1 rest
    else if c = '>' then
      processChars (handleTagEnd st) rest
    else
      processChars (if st.isInTag then st else handleTextContent st c) rest

/-- `isBufferComplete` (`xmlParser.ts` 174-179): a literal, case-sensitive
substring check on the accumulated buffer. -/
def isBufferComplete (st : PState) : Bool :=
  (splitFirst closeCharTag st.buffer).isSome
    || (splitFirst "</narrator>".toList st.buffer).isSome
    || (splitFirst "</choices>".toList st.buffer).isSome

/-- `parseChunk` (`xmlParser.ts` 42-55): append the chunk to the buffer and
re-scan the whole buffer. -/
def parseChunk (st : PState) (chunk : Str) : PState :=
  let st1 := { st with buffer := st.buffer ++ chunk }
  processChars st1 st1.buffer

/-- Feed a sequence of frames to one parser instance. -/
def parseChunks (chunks : List Str) : PState :=
  chunks.foldl parseChunk initState

/-! ### Stream transport (`app/api/story/route.ts`)

The wire frames are one JSON object per line; we model the frame sequence
of one round.  The random draw `Math.floor(Math.random()*8)+5` is modelled
by an arbitrary draw function `d`, clamped as `d k % 8 + 5` to the same
range `[5, 12]`. -/

/-- One wire frame: `{type:"content",data}` or `{type:"complete",choices}`. -/
inductive Frame : Type
  | content (payload : Str)
  | complete (choices : List Choice)
deriving Repr, DecidableEq

def framePayload : Frame → Str
  | .content p => p
  | .complete _ => []

def isCompleteFrame : Frame → Bool
  | .content _ => false
  | .complete _ => true

def payloadConcat (fs : List Frame) : Str := (fs.map framePayload).flatten

/-- The `pushChunk` loop (`route.ts` 228-252 and 77-104): while content
remains, slice off `min(d k % 8 + 5, remaining)` characters as one content
frame.  Fuel (instantiated with the content length, each step consumes at
least one character) makes the loop structurally recursive. -/
def pushChunkF (d : Nat → Nat) : Nat → Nat → Str → List Frame
  | 0, _, _ => []
  | fuel + 1, k, remaining =>
    if remaining.length = 0 then []
    else
      let size := min (d k % 8 + 5) remaining.length
      Frame.content (remaining.take size)
        :: pushChunkF d fuel (k + 1) (remaining.drop size)

/-- The full frame sequence of one POST round (`route.ts` 205-258): in fast
mode the whole content is one frame; otherwise the `pushChunk` loop runs;
either way exactly one final `complete` frame carries the choices. -/
def postStream (fastMode : Bool) (content : Str) (choices : List Choice)
    (d : Nat → Nat) : List Frame :=
  if fastMode then [Frame.content content, Frame.complete choices]
  else pushChunkF d content.length 0 content ++ [Frame.complete choices]

/-! ### Playback sequencer and history (`VisualNovel.tsx`, `saveManager.ts`,
`TypingText.tsx`) -/

/-- Conversation entry kinds (`saveManager.ts`). -/
inductive EntryType : Type
  | userInput
  | storySegment
  | userChoice
deriving Repr, DecidableEq

/-- One conversation-history record (id and timestamp omitted). -/
structure HistEntry : Type where
  type : EntryType
  content : Str
  character : Option Str
  emotion : Option Str
  segmentData : Option ParsedSegment
deriving Repr, DecidableEq

def MAX_HISTORY_ENTRIES : Nat := 1000

/-- `saveManager.addToHistory` (`saveManager.ts` 179-199): push the entry,
then drop the oldest entries beyond the cap. -/
def addToHistory (history : List HistEntry) (e : HistEntry) : List HistEntry :=
  let h := history ++ [e]
  if MAX_HISTORY_ENTRIES < h.length then h.drop (h.length - MAX_HISTORY_ENTRIES)
  else h

/-- Text of a segment (`segment.text`). -/
def segText : ParsedSegment → Str
  | .narrator t => t
  | .character _ _ t _ => t

/-- The history record written for a completed segment
(`VisualNovel.tsx` 217-225). -/
def entryOfSegment (seg : ParsedSegment) : HistEntry :=
  match seg with
  | .narrator t => ⟨.storySegment, t, none, none, some seg⟩
  | .character n e t _ => ⟨.storySegment, t, some n, some e, some seg⟩

/-- The `VisualNovel` component state relevant to the sequencer. -/
structure VNState : Type where
  currentSegments : List ParsedSegment
  currentSegmentIndex : Nat
  choices : List Choice
  gameStarted : Bool
  storyHistory : List Str
  userPrompt : Str
  fastMode : Bool
  history : List HistEntry
deriving Repr, DecidableEq

/-- `handleSegmentComplete` (`VisualNovel.tsx` 213-235): append the current
segment (if any) to the conversation history, then advance the cursor when
it is not on the last segment. -/
def handleSegmentComplete (st : VNState) : VNState :=
  let st1 :=
    match st.currentSegments.get? st.currentSegmentIndex with
    | some seg => { st with history := addToHistory st.history (entryOfSegment seg) }
    | none => st
  if st1.currentSegmentIndex < st1.currentSegments.length - 1 then
    { st1 with currentSegmentIndex := st1.currentSegmentIndex + 1 }
  else st1

/-- The `complete`-frame handler inside `fetchStory`
(`VisualNovel.tsx` 122-128): parse the accumulated markup, replace the
segment list, reset the cursor, set the choices.  No history write. -/
def roundLoad (st : VNState) (xmlContent : Str) (cs : List Choice) : VNState :=
  { st with currentSegments := parseSimpleXML xmlContent,
            currentSegmentIndex := 0, choices := cs }

def endStoryId : Str := "end_story".toList

def userChoiceEntry (t : Str) : HistEntry := ⟨.userChoice, t, none, none, none⟩

def endFarewellEntry : HistEntry :=
  ⟨.storySegment, "Story ended by user choice.".toList, none, none, none⟩

/-- `handleChoice` (`VisualNovel.tsx` 171-210).  The boolean is true when a
new round is requested (`fetchStory` called). -/
def handleChoice (st : VNState) (choiceId choiceText : Str) : VNState × Bool :=
  if choiceId = endStoryId then
    ({ st with
        gameStarted := false, currentSegments := [],
        currentSegmentIndex := 0, choices := [], storyHistory := [],
        userPrompt := [],
        history := addToHistory (addToHistory st.history
          (userChoiceEntry choiceText)) endFarewellEntry }, false)
  else
    ({ st with
        storyHistory := st.storyHistory ++ [choiceText], choices := [],
        history := addToHistory st.history (userChoiceEntry choiceText) }, true)

/-- A save slot's game state (`saveManager.ts` `GameSave.gameState`). -/
structure GameSave : Type where
  userPrompt : Str
  storyHistory : List Str
  currentSegments : List ParsedSegment
  currentSegmentIndex : Nat
  choices : List Choice
  gameStarted : Bool
  fastMode : Bool
deriving Repr, DecidableEq

/-- `handleLoad` (`VisualNovel.tsx` 269-284): restore the component state
from the save; the conversation history receives no append. -/
def handleLoad (save : GameSave) (st : VNState) : VNState :=
  { st with
      userPrompt := save.userPrompt, storyHistory := save.storyHistory,
      currentSegments := save.currentSegments,
      currentSegmentIndex := save.currentSegmentIndex,
      choices := save.choices, gameStarted := save.gameStarted,
      fastMode := save.fastMode }

/-- `TypingText` component state (`TypingText.tsx` 22-25). -/
structure TTState : Type where
  displayedText : Str
  currentIndex : Nat
  isComplete : Bool
  isSkipped : Bool
deriving Repr, DecidableEq

/-- The reset state installed whenever the `text` prop changes
(`TypingText.tsx` 77-82). -/
def initTT : TTState := ⟨[], 0, false, false⟩

/-- `skipAnimation` (`TypingText.tsx` 28-37).  The boolean records whether
the skip fired (and hence whether `onSkip`/`onComplete` were invoked). -/
def skipAnimation (text : Str) (allowSkip : Bool) (tt : TTState) :
    TTState × Bool :=
  if !tt.isComplete && allowSkip then
    (⟨text, text.length, true, true⟩, true)
  else (tt, false)

/-- The typing effect (`TypingText.tsx` 59-74) schedules its reveal timer
exactly when the text is neither skipped nor fully revealed. -/
def typingTimerArmed (text : Str) (tt : TTState) : Bool :=
  !tt.isSkipped && decide (tt.currentIndex < text.length)

/-- One reveal tick (`TypingText.tsx` 59-74): either finish, or reveal one
more character. -/
def typingTick (text : Str) (tt : TTState) : TTState :=
  if tt.isSkipped || decide (text.length ≤ tt.currentIndex) then
    { tt with isComplete := true }
  else
    { tt with displayedText := tt.displayedText ++ [text.getD tt.currentIndex ' '],
              currentIndex := tt.currentIndex + 1 }

/-- A user skip while the sequencer shows segment `currentSegmentIndex`:
`TypingText` is rendered with that segment's text and `allowSkip = true`,
and its `onComplete` prop is `handleSegmentComplete`
(`VisualNovel.tsx` 516-524). -/
def skipEvent (vn : VNState) (tt : TTState) : VNState × TTState :=
  match vn.currentSegments.get? vn.currentSegmentIndex with
  | none => (vn, tt)
  | some seg =>
    let r := skipAnimation (segText seg) true tt
    (if r.2 then handleSegmentComplete vn else vn, r.1)

/-- A concrete two-segment component state used by the sequencer
witnesses. -/
def vnEx : VNState :=
  { currentSegments := [ParsedSegment.narrator "a".toList,
      ParsedSegment.character "N".toList "happy".toList "b".toList (some [])],
    currentSegmentIndex := 0, choices := [], gameStarted := true,
    storyHistory := [], userPrompt := [], fastMode := false, history := [] }

/-- A concrete save slot used by the C6 witness. -/
def svEx : GameSave :=
  { userPrompt := [], storyHistory := [], currentSegments := [],
    currentSegmentIndex := 0, choices := [], gameStarted := false,
    fastMode := false }

/-! ### Lemmas about `splitFirst` -/

theorem isPrefixOf_iff (pat s : Str) : pat.isPrefixOf s = true ↔ pat <+: s := by
  induction pat generalizing s with
  | nil => simp [List.isPrefixOf]
  | cons a pa ih =>
    cases s with
    | nil => simp [List.isPrefixOf]
    | cons b bs =>
      simp [List.isPrefixOf, List.cons_prefix_cons, ih, and_comm]

theorem splitFirst_eq_append {pat : Str} : ∀ {s pre post : Str},
    splitFirst pat s = some (pre, post) → s = pre ++ pat ++ post := by
  intro s
  induction s with
  | nil =>
    intro pre post h
    by_cases hp : pat = ([] : Str) <;> simp [splitFirst, hp] at h
    simp [h.1, h.2, hp]
  | cons c rest ih =>
    intro pre post h
    rw [splitFirst] at h
    by_cases hp : pat.isPrefixOf (c :: rest)
    · simp only [hp, if_true, Option.some.injEq, Prod.mk.injEq] at h
      obtain ⟨hpre, hpost⟩ := h
      obtain ⟨t, ht⟩ := (isPrefixOf_iff pat (c :: rest)).1 hp
      subst hpre
      have : (c :: rest).drop pat.length = t := by
        rw [← ht, List.drop_left]
      rw [← hpost, this, List.nil_append, ht]
    · simp only [hp, if_false] at h
      rcases hsf : splitFirst pat rest with _ | ⟨pre0, post0⟩
      · rw [hsf] at h; exact absurd h (by simp)
      · rw [hsf] at h
        simp only [Option.some.injEq, Prod.mk.injEq] at h
        obtain ⟨hpre, hpost⟩ := h
        simpa using ih hsf

theorem splitFirst_length {pat s pre post : Str}
    (h : splitFirst pat s = some (pre, post)) :
    pre.length + pat.length + post.length = s.length := by
  have := splitFirst_eq_append h
  subst this
  simp; omega

theorem splitFirst_occurs {pat s pre post : Str}
    (h : splitFirst pat s = some (pre, post)) : pat <:+: s := by
  exact ⟨pre, post, (splitFirst_eq_append h).symm⟩

theorem splitFirst_isSome_of_occurs {pat : Str} : ∀ {s : Str},
    pat <:+: s → (splitFirst pat s).isSome := by
  intro s
  induction s with
  | nil =>
    intro h
    have : pat = ([] : Str) := List.eq_nil_of_infix_nil h
    simp [splitFirst, this]
  | cons c rest ih =>
    intro h
    rw [splitFirst]
    by_cases hp : pat.isPrefixOf (c :: rest)
    · simp [hp]
    · obtain ⟨pre, post, hps⟩ := h
      cases pre with
      | nil =>
        exact absurd ((isPrefixOf_iff pat (c :: rest)).2 ⟨post, by simpa using hps⟩) hp
      | cons p ps =>
        have : pat <:+: rest := ⟨ps, post, by simpa using congrArg List.tail hps⟩
        have := ih this
        simp only [hp, if_false]
        cases hsf : splitFirst pat rest with
        | none => rw [hsf] at this; simp at this
        | some pr => simp

/-! ### Shared lemmas about trimming and scanning -/

theorem dropWhile_eq_self_of_head {p : Char → Bool} {u v : Str}
    (hvu : v <+: u) (hu : u.dropWhile p = u) : v.dropWhile p = v := by
  cases v with
  | nil => simp
  | cons a t =>
    obtain ⟨w, hw⟩ := hvu
    subst hw
    rw [List.cons_append, List.dropWhile_cons] at hu
    by_cases hpa : p a = true
    · rw [if_pos hpa] at hu
      have hlen := congrArg List.length hu
      have hle := (List.dropWhile_suffix (l := t ++ w) p).length_le
      simp at hlen
      have hab : (t ++ w).length = t.length + w.length := by simp
      omega
    · rw [List.dropWhile_cons, if_neg hpa]

theorem jsTrim_eq_rdrop (s : Str) :
    jsTrim s = List.rdropWhile Char.isWhitespace (s.dropWhile Char.isWhitespace) := rfl

theorem jsTrim_idem (s : Str) : jsTrim (jsTrim s) = jsTrim s := by
  rw [jsTrim_eq_rdrop s, jsTrim_eq_rdrop]
  rw [dropWhile_eq_self_of_head (List.rdropWhile_prefix _ _)
    (List.dropWhile_idempotent (p := Char.isWhitespace) (l := s))]
  exact List.rdropWhile_idempotent _ _

theorem jsTrim_eq_nil_of_all_ws {s : Str} (h : ∀ c ∈ s, c.isWhitespace) :
    jsTrim s = [] := by
  have : s.dropWhile Char.isWhitespace = [] := by
    rw [List.dropWhile_eq_nil_iff]
    intro c hc
    exact h c hc
  rw [jsTrim_eq_rdrop, this, List.rdropWhile_nil]

theorem splitFirst_isSome_iff {pat s : Str} :
    (splitFirst pat s).isSome = true ↔ pat <:+: s := by
  constructor
  · intro h
    cases hsf : splitFirst pat s with
    | none => rw [hsf] at h; simp at h
    | some pr =>
      obtain ⟨pre, post⟩ := pr
      exact splitFirst_occurs hsf
  · intro h
    simpa using splitFirst_isSome_of_occurs h

theorem splitFirst_eq_none_of_not_occurs {pat s : Str} (h : ¬ pat <:+: s) :
    splitFirst pat s = none := by
  cases hsf : splitFirst pat s with
  | none => rfl
  | some pr =>
    obtain ⟨pre, post⟩ := pr
    exact absurd (splitFirst_occurs hsf) h

theorem extractNarratorsF_eq_nil_of_no_tag {s : Str} (fuel : Nat)
    (h : ¬ openNarr <:+: s) : extractNarratorsF fuel s = [] := by
  cases fuel with
  | zero => rfl
  | succ fuel => rw [extractNarratorsF, splitFirst_eq_none_of_not_occurs h]

theorem extractBlocksF_eq_nil_of_no_tag :
    ∀ (fuel : Nat) {s : Str}, ¬ openCharTag <:+: s → extractBlocksF fuel s = [] := by
  intro fuel
  induction fuel with
  | zero => intro s _; rfl
  | succ fuel ih =>
    intro s h
    cases s with
    | nil => rfl
    | cons c rest =>
      have hnp : ¬ openCharTag.isPrefixOf (c :: rest) = true := by
        intro hp
        exact h ((isPrefixOf_iff _ _).1 hp).isInfix
      have hrest : ¬ openCharTag <:+: rest := by
        intro hi
        exact h (hi.trans (List.suffix_cons c rest).isInfix)
      rw [extractBlocksF, if_neg hnp]
      exact ih hrest

/-- Every segment produced by the alignment loop is a character segment of
the block's name, whose text is trimmed and non-empty, and whose action
field is present. -/
theorem alignBlock_mem {nm : Str} : ∀ {ss : List Str} {acts : List (Str × Str)}
    {x : ParsedSegment}, x ∈ alignBlock nm ss acts →
    ∃ e t a, x = ParsedSegment.character nm e t (some a) ∧ jsTrim t = t ∧ t ≠ [] := by
  intro ss
  induction ss with
  | nil => intro acts x h; simp [alignBlock] at h
  | cons d ds ih =>
    intro acts x h
    simp only [alignBlock] at h
    by_cases hd : jsTrim d = ([] : Str)
    · rw [if_pos hd] at h
      exact ih h
    · rw [if_neg hd] at h
      rcases List.mem_cons.1 h with hx | hx
      · subst hx
        exact ⟨_, _, _, rfl, jsTrim_idem d, hd⟩
      · exact ih hx

/-- Splitting a list at the end of its `takeWhile` run. -/
theorem drop_takeWhile_length (p : Char → Bool) (l : Str) :
    l.drop (l.takeWhile p).length = l.dropWhile p := by
  have h := List.takeWhile_append_dropWhile (p := p) (l := l)
  calc l.drop (l.takeWhile p).length
      = (l.takeWhile p ++ l.dropWhile p).drop (l.takeWhile p).length := by rw [h]
    _ = l.dropWhile p := List.drop_left _ _

theorem charDecomp_extend {c : Char} {rest tailStr : Str}
    {parts : List (Str × (Str × Str))}
    (hdec : rest = (parts.map charBlockRender).flatten ++ tailStr) :
    ∃ (parts2 : List (Str × (Str × Str))) (tail2 : Str),
      c :: rest = (parts2.map charBlockRender).flatten ++ tail2
      ∧ parts2.map (fun x => x.2) = parts.map (fun x => x.2) := by
  cases parts with
  | nil => exact ⟨[], c :: rest, by simp, by simp⟩
  | cons p0 ps =>
    refine ⟨(c :: p0.1, p0.2) :: ps, tailStr, ?_, by simp⟩
    rw [hdec]
    simp [charBlockRender]

theorem extractNarratorsF_decomp : ∀ (fuel : Nat) (s : Str),
    ∃ (parts : List (Str × Str)) (tailStr : Str),
      s = (parts.map narrBlockRender).flatten ++ tailStr
      ∧ extractNarratorsF fuel s = parts.map (fun pc => pc.2) := by
  intro fuel
  induction fuel with
  | zero => intro s; exact ⟨[], s, by simp, rfl⟩
  | succ fuel ih =>
    intro s
    cases h1 : splitFirst openNarr s with
    | none =>
      refine ⟨[], s, by simp, ?_⟩
      rw [extractNarratorsF]
      simp [h1]
    | some pr1 =>
      obtain ⟨a, afterOpen⟩ := pr1
      cases h2 : splitFirst closeNarr afterOpen with
      | none =>
        refine ⟨[], s, by simp, ?_⟩
        rw [extractNarratorsF]
        simp [h1, h2]
      | some pr2 =>
        obtain ⟨content, rest⟩ := pr2
        obtain ⟨parts, tailStr, hdec, hext⟩ := ih rest
        refine ⟨(a, content) :: parts, tailStr, ?_, ?_⟩
        · have e1 := splitFirst_eq_append h1
          have e2 := splitFirst_eq_append h2
          rw [e1, e2, hdec]
          simp [narrBlockRender]
        · rw [extractNarratorsF]
          simp [h1, h2, hext]

theorem extractBlocksF_decomp : ∀ (fuel : Nat) (s : Str),
    ∃ (parts : List (Str × (Str × Str))) (tailStr : Str),
      s = (parts.map charBlockRender).flatten ++ tailStr
      ∧ extractBlocksF fuel s = parts.map (fun x => x.2) := by
  intro fuel
  induction fuel with
  | zero => intro s; exact ⟨[], s, by simp, rfl⟩
  | succ fuel ih =>
    intro s
    cases s with
    | nil => exact ⟨[], [], by simp, rfl⟩
    | cons c rest =>
      by_cases hp : openCharTag.isPrefixOf (c :: rest)
      · rw [extractBlocksF, if_pos hp]
        dsimp only
        split
        · rename_i nmv dropv n0 nm2 r2 heqnm heqdp
          split
          · rename_i sfv content rest2 heqsp
            obtain ⟨parts, tailStr, hdec, hext⟩ := ih rest2
            generalize hgen : ((c :: rest).drop openCharTag.length).takeWhile
              (fun ch => ch ≠ '"') = nm at heqdp ⊢
            refine ⟨([], (nm, content)) :: parts, tailStr, ?_, ?_⟩
            · have hopen : openCharTag ++ (c :: rest).drop openCharTag.length
                  = c :: rest := by
                obtain ⟨t, ht⟩ := (isPrefixOf_iff _ _).1 hp
                rw [← ht, List.drop_left]
              have hsplit : (c :: rest).drop openCharTag.length
                  = nm ++ ('"' :: '>' :: r2) := by
                conv_lhs => rw [← List.takeWhile_append_dropWhile
                  (p := fun ch => ch ≠ '"')
                  (l := (c :: rest).drop openCharTag.length)]
                rw [← drop_takeWhile_length (fun ch => ch ≠ '"')
                  ((c :: rest).drop openCharTag.length), hgen, heqdp]
              have hre2 := splitFirst_eq_append heqsp
              rw [← hopen, hsplit, hre2, hdec]
              simp [charBlockRender]
            · rw [hext]
              simp
          · rename_i sfv heqsp
            obtain ⟨parts, tailStr, hdec, hext⟩ := ih rest
            obtain ⟨parts2, tail2, hdec2, heq⟩ := charDecomp_extend (c := c) hdec
            exact ⟨parts2, tail2, hdec2, by rw [hext]; exact heq.symm⟩
        · obtain ⟨parts, tailStr, hdec, hext⟩ := ih rest
          obtain ⟨parts2, tail2, hdec2, heq⟩ := charDecomp_extend (c := c) hdec
          exact ⟨parts2, tail2, hdec2, by rw [hext]; exact heq.symm⟩
      · rw [extractBlocksF, if_neg hp]
        obtain ⟨parts, tailStr, hdec, hext⟩ := ih rest
        obtain ⟨parts2, tail2, hdec2, heq⟩ := charDecomp_extend (c := c) hdec
        exact ⟨parts2, tail2, hdec2, by rw [hext]; exact heq.symm⟩

/-- **C10.** `parseSimpleXML` is total (it is a Lean function); an empty
input, a whitespace-only input, and any input containing neither a literal
`<Narrator>` nor a literal `<character name="` all yield the empty segment
list. -/
theorem parseSimpleXML_total_safe :
    parseSimpleXML [] = []
  ∧ (∀ s : Str, (∀ c ∈ s, c.isWhitespace) → parseSimpleXML s = [])
  ∧ (∀ s : Str, ¬ openNarr <:+: s → ¬ openCharTag <:+: s →
      parseSimpleXML s = []) := by
  refine ⟨by decide, ?_, ?_⟩
  · intro s hws
    rw [parseSimpleXML, if_pos (jsTrim_eq_nil_of_all_ws hws)]
  · intro s hn hc
    rw [parseSimpleXML]
    by_cases ht : jsTrim s = ([] : Str)
    · rw [if_pos ht]
    · rw [if_neg ht]
      rw [extractNarrators, extractNarratorsF_eq_nil_of_no_tag _ hn]
      rw [extractBlocks, extractBlocksF_eq_nil_of_no_tag _ hc]
      rfl

/-- Witness for C10: a whitespace-only input and a tag-free input, with the
hypotheses discharged concretely. -/
theorem parseSimpleXML_total_safe_witness :
    ((∀ c ∈ (" ".toList : Str), c.isWhitespace) ∧ parseSimpleXML " ".toList = [])
  ∧ (¬ openNarr <:+: ("hello world".toList : Str)
      ∧ ¬ openCharTag <:+: ("hello world".toList : Str)
      ∧ parseSimpleXML "hello world".toList = []) :=
  ⟨⟨by decide, parseSimpleXML_total_safe.2.1 _ (by decide)⟩,
   ⟨by decide, by decide,
    parseSimpleXML_total_safe.2.2 _ (by decide) (by decide)⟩⟩

set_option maxRecDepth 400000 in
/-- **C1, counterexample.** `parseSimpleXML` pushes all `<Narrator>` matches
before any character segment: on a markup laid out as character block A,
narrator block One, character block B, narrator block Two, the output is
narrator One, narrator Two, character A, character B — so the segment order
does not equal the blocks' order of first appearance (A came first in the
source but narration comes out first), while within each class the source
order (One before Two, A before B) is kept. -/
theorem parseSimpleXML_order_cex :
    parseSimpleXML ("<character name=\"A\"><say>Hi</say></character>".toList
        ++ "<Narrator>One</Narrator>".toList
        ++ "<character name=\"B\"><say>Yo</say></character>".toList
        ++ "<Narrator>Two</Narrator>".toList)
      = [ParsedSegment.narrator "One".toList,
         ParsedSegment.narrator "Two".toList,
         ParsedSegment.character "A".toList neutralStr "Hi".toList (some []),
         ParsedSegment.character "B".toList neutralStr "Yo".toList (some [])] := by
  decide

/-- **C1, amended.** The segment list produced by `parseSimpleXML` is all
narrator segments followed by all character segments, and source order is
preserved within each class (not across the two classes): the emitted
narrator texts are the contents of disjoint `<Narrator>` blocks laid out
left to right in the source in emission order (witnessed by the first
decomposition of the input), and the character segments come from disjoint
`<character name="...">` blocks laid out left to right in emission order
(witnessed by the second decomposition). -/
theorem parseSimpleXML_shape (s : Str) :
    ∃ (nparts : List (Str × Str)) (ntail : Str)
      (cparts : List (Str × (Str × Str))) (ctail : Str),
      s = (nparts.map narrBlockRender).flatten ++ ntail
    ∧ s = (cparts.map charBlockRender).flatten ++ ctail
    ∧ parseSimpleXML s
        = nparts.map (fun pc => ParsedSegment.narrator (jsTrim pc.2))
          ++ (cparts.map (fun pnc =>
                alignBlock pnc.2.1 (extractSays pnc.2.2)
                  (extractActions pnc.2.2))).flatten
    ∧ (∀ x ∈ nparts.map (fun pc => ParsedSegment.narrator (jsTrim pc.2)),
        ∃ t, x = ParsedSegment.narrator t)
    ∧ (∀ x ∈ (cparts.map (fun pnc =>
          alignBlock pnc.2.1 (extractSays pnc.2.2)
            (extractActions pnc.2.2))).flatten,
        ∃ n e t a, x = ParsedSegment.character n e t (some a)) := by
  by_cases ht : jsTrim s = ([] : Str)
  · refine ⟨[], s, [], s, by simp, by simp, ?_, by simp, by simp⟩
    rw [parseSimpleXML, if_pos ht]
    rfl
  · obtain ⟨nparts, ntail, hnd, hne⟩ := extractNarratorsF_decomp s.length s
    obtain ⟨cparts, ctail, hcd, hce⟩ := extractBlocksF_decomp s.length s
    refine ⟨nparts, ntail, cparts, ctail, hnd, hcd, ?_, ?_, ?_⟩
    · rw [parseSimpleXML, if_neg ht]
      have h1 : extractNarrators s = nparts.map (fun pc => pc.2) := hne
      have h2 : extractBlocks s = cparts.map (fun x => x.2) := hce
      rw [h1, h2, List.map_map, List.map_map]
      rfl
    · intro x hx
      obtain ⟨pc, _, hxe⟩ := List.mem_map.1 hx
      exact ⟨jsTrim pc.2, hxe.symm⟩
    · intro x hx
      obtain ⟨l, hl, hxl⟩ := List.mem_flatten.1 hx
      obtain ⟨pnc, _, hbl⟩ := List.mem_map.1 hl
      rw [← hbl] at hxl
      obtain ⟨e, t, a, hxeq, _, _⟩ := alignBlock_mem hxl
      exact ⟨pnc.2.1, e, t, a, hxeq⟩

set_option maxRecDepth 40000 in
/-- **C4, counterexample.** A narrator unit whose text is empty after
trimming is *not* dropped: `parseSimpleXML` emits a narrator segment with
empty text for `<Narrator> </Narrator>`. -/
theorem parseSimpleXML_empty_narrator_cex :
    parseSimpleXML "<Narrator> </Narrator>".toList
      = [ParsedSegment.narrator []] := by decide

/-- **C4, amended.** Every segment emitted by `parseSimpleXML` has trimmed
text, and every *character* segment has non-empty text (a dialogue unit
empty after trimming is dropped); narrator units, however, are emitted even
when their trimmed text is empty. -/
theorem parseSimpleXML_text_invariant (s : Str) :
    ∀ seg ∈ parseSimpleXML s,
      jsTrim (segText seg) = segText seg
      ∧ (∀ n e t a, seg = ParsedSegment.character n e t a → t ≠ []) := by
  intro seg hseg
  rw [parseSimpleXML] at hseg
  by_cases ht : jsTrim s = ([] : Str)
  · rw [if_pos ht] at hseg
    simp at hseg
  · rw [if_neg ht] at hseg
    rcases List.mem_append.1 hseg with hx | hx
    · obtain ⟨t, _, hxt⟩ := List.mem_map.1 hx
      subst hxt
      exact ⟨jsTrim_idem t, by intro n e t0 a h; simp at h⟩
    · obtain ⟨l, hl, hxl⟩ := List.mem_flatten.1 hx
      obtain ⟨b, _, hbl⟩ := List.mem_map.1 hl
      rw [← hbl] at hxl
      obtain ⟨e, t, a, hx, htr, hne⟩ := alignBlock_mem hxl
      subst hx
      refine ⟨htr, ?_⟩
      intro n e0 t0 a0 h
      injection h with h1 h2 h3 h4
      subst h3
      exact hne

set_option maxRecDepth 100000 in
/-- Witness for C4 (amended): the invariant applied to a concrete parse. -/
theorem parseSimpleXML_text_invariant_witness :
    (ParsedSegment.character "Ari".toList "happy".toList "Hello!".toList
        (some "smiles".toList)
      ∈ parseSimpleXML "<character name=\"Ari\"><action expression=\"Happy\">smiles</action><say>Hello!</say></character>".toList)
  ∧ (jsTrim "Hello!".toList = "Hello!".toList
      ∧ ∀ n e t a, ParsedSegment.character "Ari".toList "happy".toList
          "Hello!".toList (some "smiles".toList) = ParsedSegment.character n e t a
          → t ≠ []) :=
  ⟨by decide,
   parseSimpleXML_text_invariant
     "<character name=\"Ari\"><action expression=\"Happy\">smiles</action><say>Hello!</say></character>".toList
     (ParsedSegment.character "Ari".toList "happy".toList "Hello!".toList
       (some "smiles".toList))
     (by decide)⟩

/-- Positional characterization of the alignment loop: when every dialogue
survives trimming, the output has one segment per `say` entry, and the i-th
segment carries the i-th action (lower-cased expression, trimmed action
text) or the neutral defaults once the actions run out. -/
theorem alignBlock_get (nm : Str) : ∀ (ss : List Str) (acts : List (Str × Str)),
    (∀ d ∈ ss, jsTrim d ≠ ([] : Str)) →
    (alignBlock nm ss acts).length = ss.length
    ∧ ∀ (i : Nat) (d : Str), ss[i]? = some d →
        (alignBlock nm ss acts)[i]? = some (
          match acts[i]? with
          | some ea => ParsedSegment.character nm (jsToLower ea.1) (jsTrim d)
              (some (jsTrim ea.2))
          | none => ParsedSegment.character nm neutralStr (jsTrim d) (some [])) := by
  intro ss
  induction ss with
  | nil =>
    intro acts h
    refine ⟨rfl, ?_⟩
    intro i d hd
    simp at hd
  | cons d0 ds ih =>
    intro acts h
    have hd0 : jsTrim d0 ≠ ([] : Str) := h d0 (List.mem_cons_self _ _)
    have htl : ∀ x ∈ ds, jsTrim x ≠ ([] : Str) :=
      fun x hx => h x (List.mem_cons_of_mem _ hx)
    obtain ⟨ihlen, ihget⟩ := ih acts.tail htl
    simp only [alignBlock]
    rw [if_neg hd0]
    constructor
    · simp [ihlen]
    · intro i dd hdd
      cases i with
      | zero =>
        simp only [List.getElem?_cons_zero, Option.some.injEq] at hdd
        subst hdd
        cases acts with
        | nil => simp
        | cons ea eas => simp
      | succ n =>
        simp only [List.getElem?_cons_succ] at hdd ⊢
        have hg := ihget n dd hdd
        cases acts with
        | nil => simpa using hg
        | cons ea eas => simpa using hg

set_option maxRecDepth 400000 in
/-- **C3.** Within one character block the i-th say entry is paired with
the i-th action's lower-cased expression and trimmed action text; trailing
say entries beyond the actions default to `neutral` with empty action
text.  In particular a block with 3 say entries and 1 action entry yields
the action's data on the first segment and neutral/empty on the other
two. -/
theorem alignBlock_pairing (nm : Str) (ss : List Str) (acts : List (Str × Str))
    (h : ∀ d ∈ ss, jsTrim d ≠ ([] : Str)) :
    ((alignBlock nm ss acts).length = ss.length
      ∧ ∀ (i : Nat) (d : Str), ss[i]? = some d →
          (alignBlock nm ss acts)[i]? = some (
            match acts[i]? with
            | some ea => ParsedSegment.character nm (jsToLower ea.1) (jsTrim d)
                (some (jsTrim ea.2))
            | none => ParsedSegment.character nm neutralStr (jsTrim d) (some [])))
    ∧ parseSimpleXML "<character name=\"Ari\"><action expression=\"Happy\">smiles</action><say>One</say><say>Two</say><say>Three</say></character>".toList
      = [ParsedSegment.character "Ari".toList "happy".toList "One".toList
           (some "smiles".toList),
         ParsedSegment.character "Ari".toList "neutral".toList "Two".toList
           (some []),
         ParsedSegment.character "Ari".toList "neutral".toList "Three".toList
           (some [])] :=
  ⟨alignBlock_get nm ss acts h, by decide⟩

/-- Witness for C3: the pairing theorem applied to a block with three say
entries and one action entry. -/
theorem alignBlock_pairing_witness :
    (∀ d ∈ (["One".toList, "Two".toList, "Three".toList] : List Str),
        jsTrim d ≠ ([] : Str))
  ∧ ((alignBlock "Ari".toList ["One".toList, "Two".toList, "Three".toList]
        [("Happy".toList, "smiles".toList)]).length = 3
      ∧ ∀ (i : Nat) (d : Str),
          (["One".toList, "Two".toList, "Three".toList] : List Str)[i]? = some d →
          (alignBlock "Ari".toList ["One".toList, "Two".toList, "Three".toList]
            [("Happy".toList, "smiles".toList)])[i]? = some (
            match ([("Happy".toList, "smiles".toList)] : List (Str × Str))[i]? with
            | some ea => ParsedSegment.character "Ari".toList (jsToLower ea.1)
                (jsTrim d) (some (jsTrim ea.2))
            | none => ParsedSegment.character "Ari".toList neutralStr (jsTrim d)
                (some []))) :=
  ⟨by decide,
   (alignBlock_pairing "Ari".toList ["One".toList, "Two".toList, "Three".toList]
     [("Happy".toList, "smiles".toList)] (by decide)).1⟩

/-! ### Streaming-parser lemmas -/

theorem handleTextContent_fields (st : PState) (c : Char) :
    (handleTextContent st c).buffer = st.buffer
    ∧ (handleTextContent st c).segments = st.segments := by
  unfold handleTextContent
  split <;> exact ⟨rfl, rfl⟩

theorem handleOpeningTag_fields (st : PState) :
    (handleOpeningTag st).buffer = st.buffer
    ∧ (handleOpeningTag st).segments = st.segments := by
  unfold handleOpeningTag
  split_ifs <;> first
    | exact ⟨rfl, rfl⟩
    | (split <;> exact ⟨rfl, rfl⟩)

theorem handleClosingTag_fields (st : PState) :
    (handleClosingTag st).buffer = st.buffer
    ∧ ∃ t, (handleClosingTag st).segments = st.segments ++ t := by
  unfold handleClosingTag
  dsimp only
  split_ifs with h1
  · split
    · split_ifs
      · exact ⟨rfl, [_], rfl⟩
      · exact ⟨rfl, [], by simp⟩
    · exact ⟨rfl, [], by simp⟩
  · exact ⟨rfl, [], by simp⟩

theorem handleTagEnd_fields (st : PState) :
    (handleTagEnd st).buffer = st.buffer
    ∧ ∃ t, (handleTagEnd st).segments = st.segments ++ t := by
  unfold handleTagEnd
  dsimp only
  split_ifs with h1
  · exact handleClosingTag_fields _
  · obtain ⟨hb, hs⟩ := handleOpeningTag_fields { st with isInTag := false }
    exact ⟨hb, [], by simp [hs]⟩

theorem processChars_fields : ∀ (cs : Str) (st : PState),
    (processChars st cs).buffer = st.buffer
    ∧ ∃ t, (processChars st cs).segments = st.segments ++ t := by
  intro cs
  induction cs with
  | nil => intro st; exact ⟨rfl, [], by simp [processChars]⟩
  | cons c rest ih =>
    intro st
    rw [processChars]
    split_ifs with h1 h2 h3
    · cases hsp : splitFirst ['>'] rest with
      | none =>
        simpa [hsp] using ih st
      | some pr =>
        obtain ⟨hb, t, hs⟩ := ih { st with
          tagName := (parseTag pr.1).1, attributes := (parseTag pr.1).2,
          isInTag := true }
        refine ⟨?_, t, ?_⟩ <;> simp [hsp, hb, hs]
    · obtain ⟨hb, t, hs⟩ := ih (handleTagEnd st)
      obtain ⟨hb2, t2, hs2⟩ := handleTagEnd_fields st
      exact ⟨by rw [hb, hb2], t2 ++ t, by rw [hs, hs2, List.append_assoc]⟩
    · exact ih st
    · obtain ⟨hb, t, hs⟩ := ih (handleTextContent st c)
      obtain ⟨hb2, hs2⟩ := handleTextContent_fields st c
      refine ⟨?_, t, ?_⟩ <;> simp [hb, hb2, hs, hs2]

set_option maxRecDepth 100000 in
/-- **C2, counterexample.** Fragmentation is not invariant: splitting
`"<narrator>hi</narrator> "` after the closing tag and feeding the two
frames to one parser yields the segment twice, while feeding the whole
string in a single call yields it once. -/
theorem parseChunk_fragmentation_cex :
    (parseChunks ["<narrator>hi</narrator>".toList, " ".toList]).segments
      = [ParsedSegment.narrator "hi".toList, ParsedSegment.narrator "hi".toList]
  ∧ (parseChunks ["<narrator>hi</narrator> ".toList]).segments
      = [ParsedSegment.narrator "hi".toList] := by
  constructor <;> decide

/-- **C2, amended.** `parseChunk` never consumes its input: each call
appends the chunk to the persistent buffer and re-scans the whole buffer,
appending every segment it finds to the persistent segment list.  Hence
the segment list already reported is a prefix of every later report — and
a unit completed before the final call is reported again by each later
call, so an N-frame split is not equivalent to the single-call parse. -/
theorem parseChunk_rescans (st : PState) (chunk : Str) :
    (parseChunk st chunk).buffer = st.buffer ++ chunk
    ∧ st.segments <+: (parseChunk st chunk).segments := by
  obtain ⟨hb, t, hs⟩ := processChars_fields (st.buffer ++ chunk)
    { st with buffer := st.buffer ++ chunk }
  exact ⟨hb, t, hs.symm⟩

set_option maxRecDepth 100000 in
/-- **C8, counterexample.** The round-complete predicate misses a
recognized terminal close: `</Narrator>` (as emitted by the generator for
narrator blocks) is recognized by the scanner — the segment is emitted —
but `isBufferComplete` is still false, because its substring check is
case-sensitive. -/
theorem isBufferComplete_cex :
    (parseChunk initState "<Narrator>A</Narrator>".toList).segments
      = [ParsedSegment.narrator "A".toList]
  ∧ isBufferComplete (parseChunk initState "<Narrator>A</Narrator>".toList)
      = false := by
  constructor <;> decide

/-- **C8, amended.** `isBufferComplete` is true exactly when the buffer
contains one of the three literal, lower-case substrings `</character>`,
`</narrator>`, `</choices>` — not when an arbitrarily-cased recognized
closing tag (such as `</Narrator>`) has occurred. -/
theorem isBufferComplete_characterization (st : PState) :
    isBufferComplete st = true ↔
      (closeCharTag <:+: st.buffer ∨ "</narrator>".toList <:+: st.buffer
        ∨ "</choices>".toList <:+: st.buffer) := by
  rw [isBufferComplete]
  simp only [Bool.or_eq_true, splitFirst_isSome_iff, or_assoc]

/-- Witness for C8 (amended): the characterization applied to a concrete
buffer. -/
theorem isBufferComplete_characterization_witness :
    isBufferComplete { initState with buffer := "x</narrator>y".toList } = true :=
  (isBufferComplete_characterization _).mpr (Or.inr (Or.inl (by decide)))

/-! ### Transport lemmas -/

theorem payloadConcat_cons (f : Frame) (fs : List Frame) :
    payloadConcat (f :: fs) = framePayload f ++ payloadConcat fs := by
  simp [payloadConcat]

theorem payloadConcat_append (a b : List Frame) :
    payloadConcat (a ++ b) = payloadConcat a ++ payloadConcat b := by
  simp [payloadConcat]

theorem pushChunkF_payload (d : Nat → Nat) : ∀ (fuel k : Nat) (rem : Str),
    rem.length ≤ fuel → payloadConcat (pushChunkF d fuel k rem) = rem := by
  intro fuel
  induction fuel with
  | zero =>
    intro k rem h
    have : rem = [] := List.eq_nil_of_length_eq_zero (Nat.le_zero.1 h)
    subst this
    rfl
  | succ fuel ih =>
    intro k rem h
    rw [pushChunkF]
    dsimp only
    by_cases h0 : rem.length = 0
    · rw [if_pos h0]
      have : rem = [] := List.eq_nil_of_length_eq_zero h0
      subst this
      rfl
    · rw [if_neg h0]
      rw [payloadConcat_cons]
      have hsz : 1 ≤ min (d k % 8 + 5) rem.length :=
        le_min (by omega) (by omega)
      have hlen : (rem.drop (min (d k % 8 + 5) rem.length)).length ≤ fuel := by
        rw [List.length_drop]
        omega
      rw [ih (k + 1) _ hlen]
      exact List.take_append_drop _ _

theorem pushChunkF_no_complete (d : Nat → Nat) : ∀ (fuel k : Nat) (rem : Str),
    (pushChunkF d fuel k rem).filter isCompleteFrame = [] := by
  intro fuel
  induction fuel with
  | zero => intro k rem; rfl
  | succ fuel ih =>
    intro k rem
    rw [pushChunkF]
    dsimp only
    by_cases h0 : rem.length = 0
    · rw [if_pos h0]; rfl
    · rw [if_neg h0]
      rw [List.filter_cons]
      simp only [isCompleteFrame, Bool.false_eq_true, if_false]
      exact ih _ _

/-- **C5.** In both delivery modes, the round's frame sequence consists of
content frames whose payloads concatenate (in delivery order) to the exact
markup string, followed by exactly one terminal `complete` frame carrying
the round's choices: the `complete` frame is last, and it is the only
`complete` frame of the round. -/
theorem postStream_framing (fastMode : Bool) (content : Str)
    (choices : List Choice) (d : Nat → Nat) :
    payloadConcat (postStream fastMode content choices d) = content
  ∧ (postStream fastMode content choices d).getLast?
      = some (Frame.complete choices)
  ∧ (postStream fastMode content choices d).filter isCompleteFrame
      = [Frame.complete choices] := by
  unfold postStream
  split_ifs with hf
  · refine ⟨?_, ?_, ?_⟩ <;> simp [payloadConcat, framePayload, isCompleteFrame]
  · refine ⟨?_, ?_, ?_⟩
    · rw [payloadConcat_append, pushChunkF_payload d content.length 0 content le_rfl]
      simp [payloadConcat, framePayload]
    · simp
    · rw [List.filter_append, pushChunkF_no_complete]
      simp [isCompleteFrame]

/-! ### Sequencer lemmas -/

theorem addToHistory_eq_append {h : List HistEntry} {e : HistEntry}
    (hcap : h.length + 1 ≤ MAX_HISTORY_ENTRIES) :
    addToHistory h e = h ++ [e] := by
  unfold addToHistory
  dsimp only
  rw [if_neg (by simp; omega)]

theorem handleSegmentComplete_step {st : VNState} {seg : ParsedSegment}
    (hget : st.currentSegments.get? st.currentSegmentIndex = some seg)
    (hcap : st.history.length + 1 ≤ MAX_HISTORY_ENTRIES) :
    handleSegmentComplete st =
      if st.currentSegmentIndex < st.currentSegments.length - 1 then
        { st with history := st.history ++ [entryOfSegment seg],
                  currentSegmentIndex := st.currentSegmentIndex + 1 }
      else { st with history := st.history ++ [entryOfSegment seg] } := by
  unfold handleSegmentComplete
  rw [hget]
  dsimp only
  rw [addToHistory_eq_append hcap]

theorem drop_cursor_cons {st : VNState} {seg : ParsedSegment}
    (hget : st.currentSegments.get? st.currentSegmentIndex = some seg) :
    st.currentSegments.drop st.currentSegmentIndex
      = seg :: st.currentSegments.drop (st.currentSegmentIndex + 1) := by
  rw [List.get?_eq_getElem?] at hget
  obtain ⟨hlt, hval⟩ := List.getElem?_eq_some.1 hget
  rw [List.drop_eq_getElem_cons hlt, hval]

theorem handleSegmentComplete_run : ∀ (n : Nat) (st : VNState),
    st.currentSegmentIndex + n = st.currentSegments.length →
    1 ≤ n →
    st.history.length + n ≤ MAX_HISTORY_ENTRIES →
    (handleSegmentComplete^[n] st).history
        = st.history
          ++ ((st.currentSegments.drop st.currentSegmentIndex).map entryOfSegment)
    ∧ (handleSegmentComplete^[n] st).currentSegments = st.currentSegments
    ∧ (handleSegmentComplete^[n] st).currentSegmentIndex
        = st.currentSegments.length - 1
    ∧ (handleSegmentComplete^[n] st).choices = st.choices := by
  intro n
  induction n with
  | zero => intro st _ h1 _; omega
  | succ n ih =>
    intro st hlen h1 hcap
    have hidx : st.currentSegmentIndex < st.currentSegments.length := by omega
    have hget : st.currentSegments.get? st.currentSegmentIndex
        = some (st.currentSegments.get ⟨st.currentSegmentIndex, hidx⟩) :=
      List.get?_eq_get hidx
    have hstep := handleSegmentComplete_step hget (by omega)
    have hdrop := drop_cursor_cons hget
    by_cases hn : n = 0
    · subst hn
      rw [Function.iterate_one]
      rw [hstep, if_neg (by omega)]
      refine ⟨?_, rfl, ?_, rfl⟩
      · dsimp only
        rw [hdrop, List.drop_eq_nil_of_le (by omega)]
        simp
      · dsimp only
        omega
    · rw [Function.iterate_succ_apply]
      rw [hstep, if_pos (by omega)]
      obtain ⟨ha, hb, hc, hd⟩ := ih
        { st with
            history := st.history ++ [entryOfSegment
              (st.currentSegments.get ⟨st.currentSegmentIndex, hidx⟩)],
            currentSegmentIndex := st.currentSegmentIndex + 1 }
        (by dsimp only; omega) (by omega) (by dsimp only; simp; omega)
      dsimp only at ha hb hc hd
      refine ⟨?_, hb, hc, hd⟩
      rw [ha, hdrop]
      simp only [List.map_cons, List.append_assoc, List.singleton_append]

/-- **C6.** For a round of K segments loaded at cursor 0, advancing through
all K segments (one completion event per segment) performs exactly K
history appends — one entry per segment, in segment order — leaving the
cursor at K-1; loading a round (`roundLoad`) and restoring a save
(`handleLoad`) perform no history append at all, so reloading an
unfinished round commits nothing a second time. -/
theorem commit_once (st : VNState) (K : Nat) (xml : Str) (cs : List Choice)
    (sv : GameSave)
    (hK : st.currentSegments.length = K) (h0 : st.currentSegmentIndex = 0)
    (h1 : 1 ≤ K) (hcap : st.history.length + K ≤ MAX_HISTORY_ENTRIES) :
    (handleSegmentComplete^[K] st).history
        = st.history ++ st.currentSegments.map entryOfSegment
    ∧ (handleSegmentComplete^[K] st).currentSegments = st.currentSegments
    ∧ (handleSegmentComplete^[K] st).currentSegmentIndex = K - 1
    ∧ (roundLoad st xml cs).history = st.history
    ∧ (handleLoad sv st).history = st.history := by
  obtain ⟨ha, hb, hc, _⟩ := handleSegmentComplete_run K st (by omega) h1 (by omega)
  refine ⟨?_, hb, ?_, rfl, rfl⟩
  · rw [ha, h0, List.drop_zero]
  · rw [hc, hK]

/-- Witness for C6: the commit-once theorem on a concrete two-segment
round. -/
theorem commit_once_witness :
    (vnEx.currentSegments.length = 2 ∧ vnEx.currentSegmentIndex = 0
      ∧ 1 ≤ 2 ∧ vnEx.history.length + 2 ≤ MAX_HISTORY_ENTRIES)
  ∧ ((handleSegmentComplete^[2] vnEx).history
        = vnEx.history ++ vnEx.currentSegments.map entryOfSegment
    ∧ (handleSegmentComplete^[2] vnEx).currentSegments = vnEx.currentSegments
    ∧ (handleSegmentComplete^[2] vnEx).currentSegmentIndex = 2 - 1
    ∧ (roundLoad vnEx [] []).history = vnEx.history
    ∧ (handleLoad svEx vnEx).history = vnEx.history) :=
  ⟨⟨by decide, by decide, by decide, by decide⟩,
   commit_once vnEx 2 [] [] svEx (by decide) (by decide) (by decide) (by decide)⟩

/-- **C9.** Selecting the reserved `end_story` choice resets the session:
segments emptied, cursor 0, choices emptied, story history emptied, game
no longer started, and no new round is requested (the two history entries
written are the user's choice and the farewell line); selecting any other
choice commits the choice to history, clears the choices, appends the
choice text to the story history, and requests a new round. -/
theorem handleChoice_spec (st : VNState) (cid ctext : Str)
    (hcap : st.history.length + 2 ≤ MAX_HISTORY_ENTRIES) :
    (cid = endStoryId →
        ((handleChoice st cid ctext).1.currentSegments = []
      ∧ (handleChoice st cid ctext).1.currentSegmentIndex = 0
      ∧ (handleChoice st cid ctext).1.choices = []
      ∧ (handleChoice st cid ctext).1.storyHistory = []
      ∧ (handleChoice st cid ctext).1.gameStarted = false
      ∧ (handleChoice st cid ctext).2 = false
      ∧ (handleChoice st cid ctext).1.history
          = st.history ++ [userChoiceEntry ctext, endFarewellEntry]))
  ∧ (cid ≠ endStoryId →
        ((handleChoice st cid ctext).1.history
            = st.history ++ [userChoiceEntry ctext]
      ∧ (handleChoice st cid ctext).1.choices = []
      ∧ (handleChoice st cid ctext).1.currentSegments = st.currentSegments
      ∧ (handleChoice st cid ctext).1.currentSegmentIndex
          = st.currentSegmentIndex
      ∧ (handleChoice st cid ctext).1.storyHistory
          = st.storyHistory ++ [ctext]
      ∧ (handleChoice st cid ctext).2 = true)) := by
  constructor
  · intro h
    unfold handleChoice
    rw [if_pos h]
    refine ⟨rfl, rfl, rfl, rfl, rfl, rfl, ?_⟩
    dsimp only
    have hin : addToHistory st.history (userChoiceEntry ctext)
        = st.history ++ [userChoiceEntry ctext] :=
      addToHistory_eq_append (by omega)
    rw [hin, addToHistory_eq_append (by simp; omega)]
    simp
  · intro h
    unfold handleChoice
    rw [if_neg h]
    refine ⟨?_, rfl, rfl, rfl, rfl, rfl⟩
    dsimp only
    exact addToHistory_eq_append (by omega)

/-- Witness for C9: both branches of the choice handler at concrete
inputs. -/
theorem handleChoice_spec_witness :
    (vnEx.history.length + 2 ≤ MAX_HISTORY_ENTRIES
      ∧ endStoryId = endStoryId
      ∧ ("go".toList : Str) ≠ endStoryId)
  ∧ ((handleChoice vnEx endStoryId "bye".toList).1.currentSegments = []
    ∧ (handleChoice vnEx endStoryId "bye".toList).1.currentSegmentIndex = 0
    ∧ (handleChoice vnEx endStoryId "bye".toList).1.choices = []
    ∧ (handleChoice vnEx endStoryId "bye".toList).1.storyHistory = []
    ∧ (handleChoice vnEx endStoryId "bye".toList).1.gameStarted = false
    ∧ (handleChoice vnEx endStoryId "bye".toList).2 = false
    ∧ (handleChoice vnEx endStoryId "bye".toList).1.history
        = vnEx.history ++ [userChoiceEntry "bye".toList, endFarewellEntry])
  ∧ ((handleChoice vnEx "go".toList "Go on".toList).1.history
        = vnEx.history ++ [userChoiceEntry "Go on".toList]
    ∧ (handleChoice vnEx "go".toList "Go on".toList).1.choices = []
    ∧ (handleChoice vnEx "go".toList "Go on".toList).1.currentSegments
        = vnEx.currentSegments
    ∧ (handleChoice vnEx "go".toList "Go on".toList).1.currentSegmentIndex
        = vnEx.currentSegmentIndex
    ∧ (handleChoice vnEx "go".toList "Go on".toList).1.storyHistory
        = vnEx.storyHistory ++ ["Go on".toList]
    ∧ (handleChoice vnEx "go".toList "Go on".toList).2 = true) :=
  ⟨⟨by decide, rfl, by decide⟩,
   (handleChoice_spec vnEx endStoryId "bye".toList (by decide)).1 rfl,
   (handleChoice_spec vnEx "go".toList "Go on".toList (by decide)).2
     (by decide)⟩

/-- **C7, counterexample.** A skip while the first of two segments is being
revealed does not leave the cursor index unchanged: the skip invokes the
completion callback, which advances the cursor from 0 to 1. -/
theorem skip_cursor_cex :
    vnEx.currentSegmentIndex = 0
  ∧ (skipEvent vnEx initTT).1.currentSegmentIndex = 1
  ∧ (skipEvent vnEx initTT).1.currentSegments = vnEx.currentSegments := by
  refine ⟨rfl, by decide, by decide⟩

/-- **C7, amended.** Invoking skip while segment i is being revealed
reveals it fully at once (the displayed text becomes the whole segment
text) without modifying the segments list, and the reveal timer is never
re-armed for that segment; but, because the skip fires the completion
callback, it also commits segment i to the history and advances the
cursor to i+1 whenever i is not the last segment (the cursor stays at i
only on the last segment). -/
theorem skip_spec (vn : VNState) (tt : TTState) (seg : ParsedSegment)
    (hseg : vn.currentSegments.get? vn.currentSegmentIndex = some seg)
    (hrev : tt.isComplete = false)
    (hcap : vn.history.length + 1 ≤ MAX_HISTORY_ENTRIES) :
    (skipEvent vn tt).2.displayedText = segText seg
  ∧ (skipEvent vn tt).2.isComplete = true
  ∧ typingTimerArmed (segText seg) (skipEvent vn tt).2 = false
  ∧ (skipEvent vn tt).1.currentSegments = vn.currentSegments
  ∧ (skipEvent vn tt).1.history = vn.history ++ [entryOfSegment seg]
  ∧ (skipEvent vn tt).1.currentSegmentIndex
      = (if vn.currentSegmentIndex < vn.currentSegments.length - 1
         then vn.currentSegmentIndex + 1 else vn.currentSegmentIndex) := by
  have hskip : skipEvent vn tt
      = (handleSegmentComplete vn,
         ⟨segText seg, (segText seg).length, true, true⟩) := by
    unfold skipEvent skipAnimation
    rw [hseg]
    simp only [hrev, Bool.not_false, Bool.and_self, if_true]
  rw [hskip]
  refine ⟨rfl, rfl, rfl, ?_, ?_, ?_⟩
  · rw [handleSegmentComplete_step hseg hcap]
    split_ifs <;> rfl
  · rw [handleSegmentComplete_step hseg hcap]
    split_ifs <;> rfl
  · rw [handleSegmentComplete_step hseg hcap]
    split_ifs <;> rfl

/-- Witness for C7 (amended): the skip transition on a concrete revealing
state. -/
theorem skip_spec_witness :
    (vnEx.currentSegments.get? vnEx.currentSegmentIndex
        = some (ParsedSegment.narrator "a".toList)
      ∧ initTT.isComplete = false
      ∧ vnEx.history.length + 1 ≤ MAX_HISTORY_ENTRIES)
  ∧ ((skipEvent vnEx initTT).2.displayedText
        = segText (ParsedSegment.narrator "a".toList)
    ∧ (skipEvent vnEx initTT).2.isComplete = true
    ∧ typingTimerArmed (segText (ParsedSegment.narrator "a".toList))
        (skipEvent vnEx initTT).2 = false
    ∧ (skipEvent vnEx initTT).1.currentSegments = vnEx.currentSegments
    ∧ (skipEvent vnEx initTT).1.history
        = vnEx.history ++ [entryOfSegment (ParsedSegment.narrator "a".toList)]
    ∧ (skipEvent vnEx initTT).1.currentSegmentIndex
        = (if vnEx.currentSegmentIndex < vnEx.currentSegments.length - 1
           then vnEx.currentSegmentIndex + 1 else vnEx.currentSegmentIndex)) :=
  ⟨⟨by decide, rfl, by decide⟩,
   skip_spec vnEx initTT (ParsedSegment.narrator "a".toList)
     (by decide) rfl (by decide)⟩

set_option maxRecDepth 10000 in
/-- The worked example of the specification: one narrator block followed by
one single-action, single-say character block. -/
theorem spec_markup_example : parseSimpleXML "<Narrator>A door creaks.</Narrator><character name=\"Ari\"><action expression=\"Happy\">smiles</action><say>Hello!</say></character>".toList
    = [ParsedSegment.narrator "A door creaks.".toList,
       ParsedSegment.character "Ari".toList "happy".toList "Hello!".toList
         (some "smiles".toList)] := by decide
